import Mathlib

/-!
Verification of the text layout engine in `src/trezor/ui/text.py`
(`render_words` and the `Text` widget).

The engine consumes a heterogeneous token stream (strings and control
integers), lays words out with greedy wrapping, mid-word splitting and
truncation, and emits positioned draw calls through a display collaborator.
We embed the algorithm shallowly: Python strings become `List Char`, the
token stream becomes `List Token`, and each `ui.display.text` call becomes a
`DrawCall` record appended to a trace.  The `while` loop of the fit pass is
embedded with an explicit fuel parameter; `render_words` supplies a fuel
bound derived from the vertical budget, and we prove (claim C1) that this
bound always suffices, so the fueled function never returns `none`.
-/

namespace TrezorUI

/-- Modelled from the spec: the display collaborator (`trezor.ui` /
`ui.display`), whose source is not part of the supplied tree.  Per spec §6
it exposes a pure, deterministic text-measurement function and the
constants `WIDTH`, the three font ids and the theme colors.  Per spec §3
glyph metrics are per-character widths; the width of a string is the sum of
its characters' widths (the source's backward split scan, lines 63-66 of
`text.py`, decrements the string width one character at a time and thus
presupposes exactly this additivity). -/
structure Disp where
  WIDTH : Int
  NORMAL : Int
  BOLD : Int
  MONO : Int
  FG : Int
  BG : Int
  GREY : Int
  TITLE_GREY : Int
  ORANGE_ICON : Int
  charWidth : Char → Int → Nat

/-- Modelled from the spec: `ui.display.text_width(s, font)`, the sum of the
per-character glyph widths of `s` under `font`. -/
def text_width (d : Disp) (s : List Char) (font : Int) : Nat :=
  (s.map fun c => d.charWidth c font).sum

/-- Source constant `TEXT_HEADER_HEIGHT = const(48)` (text.py line 4). -/
def TEXT_HEADER_HEIGHT : Int := 48

/-- Source constant `TEXT_LINE_HEIGHT = const(26)` (text.py line 5). -/
def TEXT_LINE_HEIGHT : Int := 26

/-- Source constant `TEXT_MARGIN_LEFT = const(14)` (text.py line 6). -/
def TEXT_MARGIN_LEFT : Int := 14

/-- Source constant `TEXT_MAX_LINES = const(4)` (text.py line 7). -/
def TEXT_MAX_LINES : Int := 4

/-- Source constant `BR = const(-256)` (text.py line 10), the line-break sentinel. -/
def BR : Int := -256

/-- A token of the content stream: the Python list holds either an `int`
(control token) or a `str` (word), cf. `isinstance(word, int)` on line 29. -/
inductive Token where
  | num (n : Int)
  | word (w : List Char)
deriving DecidableEq, Repr

/-- Which call site of `ui.display.text` produced a draw: `primary` for the
word draw (line 84) and the split-span draw (line 72), `marker` for the
dash split marker (line 73 with `split = '-'`), `ellipsis` for the
truncation ellipsis (lines 33, 91, and line 73 with `split = '...'`).
This tag records the source's own span / split-marker / truncation
distinction (lines 55-61) and is metadata alongside the call arguments. -/
inductive DrawKind where
  | primary
  | marker
  | ellipsis
deriving DecidableEq, Repr

/-- One `ui.display.text(x, y, text, font, fg, bg)` call, together with the
`DrawKind` tag of the call site that issued it. -/
structure DrawCall where
  x : Int
  y : Int
  text : List Char
  font : Int
  fg : Int
  bg : Int
  kind : DrawKind
deriving DecidableEq, Repr

/-- The characters of the string `'-'`. -/
def dashText : List Char := ['-']

/-- The characters of the string `'...'`. -/
def ellipsisText : List Char := ['.', '.', '.']

/-- Glyph width `SPACE = ui.display.text_width(' ', font)` with `font = ui.NORMAL`
(text.py line 24). -/
def SPACE (d : Disp) : Nat := text_width d [' '] d.NORMAL

/-- Glyph width `DASH = ui.display.text_width('-', ui.BOLD)` (text.py line 25). -/
def DASH (d : Disp) : Nat := text_width d dashText d.BOLD

/-- Glyph width `ELLIPSIS = ui.display.text_width('...', ui.BOLD)` (text.py line 26). -/
def ELLIPSIS (d : Disp) : Nat := text_width d ellipsisText d.BOLD

/-- The backward split scan of text.py lines 63-69:
`for index in range(len(word) - 1, 0, -1)` decrements the running `width`
by the glyph width of `word[index]` and stops at the first (i.e. largest)
index at which `offset_x + width + splitw < OFFSET_X_MAX`; if the scan
exhausts the range, the `else` arm sets `index = 0` (keeping the fully
decremented running width).  The function is called with `index` set to
`len(word) - 1` and returns the pair `(index, width)` left by the loop. -/
def scan_split (d : Disp) (font : Int) (XMAX : Int) (offset_x : Int) (splitw : Nat)
    (word : List Char) : Nat → Nat → Nat × Nat
  | 0, width => (0, width)
  | index + 1, width =>
    let width2 := width - d.charWidth (word.getD (index + 1) ' ') font
    if offset_x + (width2 : Int) + (splitw : Int) < XMAX then (index + 1, width2)
    else scan_split d font XMAX offset_x splitw word index width2

/-- The split index the engine uses for a word at cursor column `offset_x`
with split-marker width `splitw`: the backward scan started at
`len(word) - 1` with the running width initialised to the word's measured
width (text.py lines 45, 81 and 63-69). -/
def split_index (d : Disp) (font : Int) (offset_x : Int) (splitw : Nat)
    (word : List Char) : Nat :=
  (scan_split d font d.WIDTH offset_x splitw word (word.length - 1)
    (text_width d word font)).1

/-- The word fit loop, text.py lines 47-81 (`while offset_x + width + SPACE +
ELLIPSIS > OFFSET_X_MAX`).  The Python branch structure computes
`space_for_another_line` and `word_fits_in_one_line` and then branches; we
expand the marker choice of lines 56-61 into the two `offset_y < YMAX`
branches.  Result: `none` when the fuel is exhausted (shown unreachable for
the fuel `render_words` supplies), otherwise the draw calls issued by the
loop together with `none` when the pass returned early inside the loop
(line 76) or `some (offset_x, offset_y, word, width)` for the state in
which the loop exited and the word is about to be drawn (line 84). -/
def word_loop (d : Disp) (YMAX : Int) (font fg : Int) :
    Nat → Int → Int → List Char → Nat →
      Option (List DrawCall × Option (Int × Int × List Char × Nat))
  | 0, _, _, _, _ => none
  | fuel + 1, offset_x, offset_y, word, width =>
    if offset_x + (width : Int) + (SPACE d : Int) + (ELLIPSIS d : Int) > d.WIDTH then
      if offset_y < YMAX ∧ (width : Int) < d.WIDTH - TEXT_MARGIN_LEFT then
        -- line break (lines 50-54): reset x, advance y, break out of the loop
        some ([], some (TEXT_MARGIN_LEFT, offset_y + TEXT_LINE_HEIGHT, word, width))
      else if offset_y < YMAX then
        -- word split with a dash (split = '-'), then continue with the rest
        match scan_split d font d.WIDTH offset_x (DASH d) word (word.length - 1) width with
        | (index, width2) =>
          match word_loop d YMAX font fg fuel TEXT_MARGIN_LEFT
              (offset_y + TEXT_LINE_HEIGHT) (word.drop index)
              (text_width d (word.drop index) font) with
          | none => none
          | some (ds, r) =>
            some (⟨offset_x, offset_y, word.take index, font, fg, d.BG, DrawKind.primary⟩ ::
              ⟨offset_x + (width2 : Int), offset_y, dashText, d.BOLD, d.GREY, d.BG,
                DrawKind.marker⟩ :: ds, r)
      else
        -- word split with an ellipsis (split = '...'), then return (line 76)
        match scan_split d font d.WIDTH offset_x (ELLIPSIS d) word (word.length - 1) width with
        | (index, width2) =>
          some ([⟨offset_x, offset_y, word.take index, font, fg, d.BG, DrawKind.primary⟩,
            ⟨offset_x + (width2 : Int), offset_y, ellipsisText, d.BOLD, d.GREY, d.BG,
              DrawKind.ellipsis⟩], none)
    else
      some ([], some (offset_x, offset_y, word, width))

/-- Processing of one string token, text.py lines 45-94: measure the word
(line 45), run the fit loop, draw the word (line 84), advance the cursor
(lines 85-86), and apply the implicit line break of the `new_lines` mode
(lines 88-94).  Result: `none` on fuel exhaustion, otherwise the draws
together with `none` if the pass returned, or `some (offset_x, offset_y)`
for the cursor at which the next token is processed. -/
def do_word (d : Disp) (YMAX : Int) (new_lines : Bool) (fuel : Nat) (font fg : Int)
    (offset_x offset_y : Int) (word : List Char) :
    Option (List DrawCall × Option (Int × Int)) :=
  match word_loop d YMAX font fg fuel offset_x offset_y word (text_width d word font) with
  | none => none
  | some (ds, none) => some (ds, none)
  | some (ds, some (x, y, w, width)) =>
    let wordDraw : DrawCall := ⟨x, y, w, font, fg, d.BG, DrawKind.primary⟩
    let x2 := x + (width : Int) + (SPACE d : Int)
    if new_lines then
      if ¬ y < YMAX then
        some (ds ++ [wordDraw,
          ⟨x2, y, ellipsisText, d.BOLD, d.GREY, d.BG, DrawKind.ellipsis⟩], none)
      else
        some (ds ++ [wordDraw], some (TEXT_MARGIN_LEFT, y + TEXT_LINE_HEIGHT))
    else
      some (ds ++ [wordDraw], some (x2, y))

/-- The token dispatch loop of text.py lines 28-94 (`for word in words`),
carrying the mutable rendering state `(font, fg, offset_x, offset_y)`.
Integer tokens are the line-break sentinel `BR` (lines 30-36), a font
change (lines 37-39) or a foreground color change (lines 40-42). -/
def render_words_aux (d : Disp) (YMAX : Int) (new_lines : Bool) (fuel : Nat) :
    List Token → Int → Int → Int → Int → Option (List DrawCall)
  | [], _, _, _, _ => some []
  | Token.num n :: ws, font, fg, offset_x, offset_y =>
    if n = BR then
      if ¬ offset_y < YMAX then
        some [⟨offset_x, offset_y, ellipsisText, d.BOLD, d.GREY, d.BG, DrawKind.ellipsis⟩]
      else
        render_words_aux d YMAX new_lines fuel ws font fg TEXT_MARGIN_LEFT
          (offset_y + TEXT_LINE_HEIGHT)
    else if n = d.NORMAL ∨ n = d.BOLD ∨ n = d.MONO then
      render_words_aux d YMAX new_lines fuel ws n fg offset_x offset_y
    else
      render_words_aux d YMAX new_lines fuel ws font n offset_x offset_y
  | Token.word w :: ws, font, fg, offset_x, offset_y =>
    match do_word d YMAX new_lines fuel font fg offset_x offset_y w with
    | none => none
    | some (ds, none) => some ds
    | some (ds, some (x, y)) =>
      match render_words_aux d YMAX new_lines fuel ws font fg x y with
      | none => none
      | some rest => some (ds ++ rest)

/-- Bottom boundary `OFFSET_Y_MAX = TEXT_HEADER_HEIGHT + TEXT_LINE_HEIGHT * max_lines`
(text.py line 21), the bottom boundary of the pass. -/
def OFFSET_Y_MAX (max_lines : Int) : Int :=
  TEXT_HEADER_HEIGHT + TEXT_LINE_HEIGHT * max_lines

/-- Fuel supplied to the fit loop: one unit more than the number of pixels
of vertical budget below the first line.  Each continuing iteration of the
`while` loop advances `offset_y` by `TEXT_LINE_HEIGHT = 26 ≥ 1`, so this
bound always suffices (proved for claim C1). -/
def init_fuel (max_lines : Int) : Nat :=
  (OFFSET_Y_MAX max_lines - (TEXT_HEADER_HEIGHT + TEXT_LINE_HEIGHT)).toNat + 1

/-- The engine `render_words(words, new_lines, max_lines)` (text.py lines 13-94) with
the initial state of lines 14-21: `font = ui.NORMAL`, `fg = ui.FG`,
`offset_x = TEXT_MARGIN_LEFT`, `offset_y = TEXT_HEADER_HEIGHT +
TEXT_LINE_HEIGHT`.  Returns the trace of `ui.display.text` calls. -/
def render_words (d : Disp) (words : List Token) (new_lines : Bool) (max_lines : Int) :
    Option (List DrawCall) :=
  render_words_aux d (OFFSET_Y_MAX max_lines) new_lines (init_fuel max_lines) words
    d.NORMAL d.FG TEXT_MARGIN_LEFT (TEXT_HEADER_HEIGHT + TEXT_LINE_HEIGHT)

/-- Modelled from the spec: the variant of the fit loop described by spec
§4.1 step 2, which after wrapping to a fresh line "re-test[s] fit with the
full word (the `while` condition is re-evaluated)".  It differs from
`word_loop` only in the wrap branch, which re-enters the loop instead of
exiting it.  Used to settle claim C3 by comparison with `word_loop`. -/
def word_loop_specC3 (d : Disp) (YMAX : Int) (font fg : Int) :
    Nat → Int → Int → List Char → Nat →
      Option (List DrawCall × Option (Int × Int × List Char × Nat))
  | 0, _, _, _, _ => none
  | fuel + 1, offset_x, offset_y, word, width =>
    if offset_x + (width : Int) + (SPACE d : Int) + (ELLIPSIS d : Int) > d.WIDTH then
      if offset_y < YMAX ∧ (width : Int) < d.WIDTH - TEXT_MARGIN_LEFT then
        word_loop_specC3 d YMAX font fg fuel TEXT_MARGIN_LEFT
          (offset_y + TEXT_LINE_HEIGHT) word width
      else if offset_y < YMAX then
        match scan_split d font d.WIDTH offset_x (DASH d) word (word.length - 1) width with
        | (index, width2) =>
          match word_loop_specC3 d YMAX font fg fuel TEXT_MARGIN_LEFT
              (offset_y + TEXT_LINE_HEIGHT) (word.drop index)
              (text_width d (word.drop index) font) with
          | none => none
          | some (ds, r) =>
            some (⟨offset_x, offset_y, word.take index, font, fg, d.BG, DrawKind.primary⟩ ::
              ⟨offset_x + (width2 : Int), offset_y, dashText, d.BOLD, d.GREY, d.BG,
                DrawKind.marker⟩ :: ds, r)
      else
        match scan_split d font d.WIDTH offset_x (ELLIPSIS d) word (word.length - 1) width with
        | (index, width2) =>
          some ([⟨offset_x, offset_y, word.take index, font, fg, d.BG, DrawKind.primary⟩,
            ⟨offset_x + (width2 : Int), offset_y, ellipsisText, d.BOLD, d.GREY, d.BG,
              DrawKind.ellipsis⟩], none)
    else
      some ([], some (offset_x, offset_y, word, width))

/-- Modelled from the spec: `do_word` with the spec §4.1 variant
`word_loop_specC3` in place of `word_loop`. -/
def do_word_specC3 (d : Disp) (YMAX : Int) (new_lines : Bool) (fuel : Nat) (font fg : Int)
    (offset_x offset_y : Int) (word : List Char) :
    Option (List DrawCall × Option (Int × Int)) :=
  match word_loop_specC3 d YMAX font fg fuel offset_x offset_y word
      (text_width d word font) with
  | none => none
  | some (ds, none) => some (ds, none)
  | some (ds, some (x, y, w, width)) =>
    let wordDraw : DrawCall := ⟨x, y, w, font, fg, d.BG, DrawKind.primary⟩
    let x2 := x + (width : Int) + (SPACE d : Int)
    if new_lines then
      if ¬ y < YMAX then
        some (ds ++ [wordDraw,
          ⟨x2, y, ellipsisText, d.BOLD, d.GREY, d.BG, DrawKind.ellipsis⟩], none)
      else
        some (ds ++ [wordDraw], some (TEXT_MARGIN_LEFT, y + TEXT_LINE_HEIGHT))
    else
      some (ds ++ [wordDraw], some (x2, y))

/-- Modelled from the spec: `render_words_aux` with `do_word_specC3`. -/
def render_words_aux_specC3 (d : Disp) (YMAX : Int) (new_lines : Bool) (fuel : Nat) :
    List Token → Int → Int → Int → Int → Option (List DrawCall)
  | [], _, _, _, _ => some []
  | Token.num n :: ws, font, fg, offset_x, offset_y =>
    if n = BR then
      if ¬ offset_y < YMAX then
        some [⟨offset_x, offset_y, ellipsisText, d.BOLD, d.GREY, d.BG, DrawKind.ellipsis⟩]
      else
        render_words_aux_specC3 d YMAX new_lines fuel ws font fg TEXT_MARGIN_LEFT
          (offset_y + TEXT_LINE_HEIGHT)
    else if n = d.NORMAL ∨ n = d.BOLD ∨ n = d.MONO then
      render_words_aux_specC3 d YMAX new_lines fuel ws n fg offset_x offset_y
    else
      render_words_aux_specC3 d YMAX new_lines fuel ws font n offset_x offset_y
  | Token.word w :: ws, font, fg, offset_x, offset_y =>
    match do_word_specC3 d YMAX new_lines fuel font fg offset_x offset_y w with
    | none => none
    | some (ds, none) => some ds
    | some (ds, some (x, y)) =>
      match render_words_aux_specC3 d YMAX new_lines fuel ws font fg x y with
      | none => none
      | some rest => some (ds ++ rest)

/-- Modelled from the spec: `render_words` with the spec §4.1 step-2
re-evaluation behaviour, for comparison with `render_words` in claim C3. -/
def render_words_specC3 (d : Disp) (words : List Token) (new_lines : Bool)
    (max_lines : Int) : Option (List DrawCall) :=
  render_words_aux_specC3 d (OFFSET_Y_MAX max_lines) new_lines (init_fuel max_lines)
    words d.NORMAL d.FG TEXT_MARGIN_LEFT (TEXT_HEADER_HEIGHT + TEXT_LINE_HEIGHT)

/-- Concatenation of the texts of the `primary`-kind draws of a trace, in
drawing order (the drawn spans minus the split markers, spec §8
"Split correctness"). -/
def concatPrimary : List DrawCall → List Char
  | [] => []
  | c :: l => (if c.kind = DrawKind.primary then c.text else []) ++ concatPrimary l

/-- The `ui.header(...)` call issued by `Text.render` (text.py line 113). -/
structure HeaderCall where
  text : List Char
  icon : List Nat
  fg : Int
  bg : Int
  icon_color : Int
deriving DecidableEq, Repr

/-- The `Text` widget (text.py lines 97-114): stored fields set by
`__init__`. -/
structure Text where
  header_text : List Char
  header_icon : List Nat
  content : List Token
  new_lines : Bool
  max_lines : Int
  icon_color : Int
deriving DecidableEq, Repr

/-- Widget method `Text.render` (text.py lines 112-114): draw the header, then delegate
to `render_words`.  The result pairs the emitted calls with the widget
state after the call; the source assigns no attribute inside `render`, so
the state component is the receiver unchanged. -/
def Text.render (d : Disp) (t : Text) : (HeaderCall × Option (List DrawCall)) × Text :=
  ((⟨t.header_text, t.header_icon, d.TITLE_GREY, d.BG, t.icon_color⟩,
    render_words d t.content t.new_lines t.max_lines), t)

/-- A concrete display for witnesses and counterexamples: region width 240
(the device display width) and every glyph 10 pixels wide. -/
def dA : Disp where
  WIDTH := 240
  NORMAL := 0
  BOLD := 1
  MONO := 2
  FG := 100
  BG := 0
  GREY := 50
  TITLE_GREY := 60
  ORANGE_ICON := 70
  charWidth := fun _ _ => 10


theorem tw_append (d : Disp) (a b : List Char) (f : Int) :
    text_width d (a ++ b) f = text_width d a f + text_width d b f := by
  simp [text_width]

theorem tw_take_succ (d : Disp) (w : List Char) (f : Int) (n : Nat) (h : n < w.length) :
    text_width d (w.take (n + 1)) f
      = text_width d (w.take n) f + d.charWidth (w.getD n ' ') f := by
  rw [List.take_succ, tw_append]
  congr 1
  rw [List.getElem?_eq_getElem h]
  simp [text_width, List.getD_eq_getElem?_getD, List.getElem?_eq_getElem h]


theorem scan_split_go (d : Disp) (font XMAX offset_x : Int) (splitw : Nat)
    (word : List Char) :
    ∀ idx width index2 width2,
      width = text_width d (word.take (idx + 1)) font → idx + 1 ≤ word.length →
      scan_split d font XMAX offset_x splitw word idx width = (index2, width2) →
      (1 ≤ index2 →
        index2 ≤ idx ∧ width2 = text_width d (word.take index2) font ∧
          offset_x + (width2 : Int) + (splitw : Int) < XMAX) ∧
      (∀ i, index2 < i → i ≤ idx →
        ¬ offset_x + (text_width d (word.take i) font : Int) + (splitw : Int) < XMAX) := by
  intro idx
  induction idx with
  | zero =>
    intro width index2 width2 hw hlen h
    simp only [scan_split] at h
    obtain ⟨h1, h2⟩ := Prod.mk.injEq .. ▸ h
    constructor
    · intro hi; omega
    · intro i hi1 hi2; omega
  | succ j ih =>
    intro width index2 width2 hw hlen h
    have hjlen : j + 1 < word.length := by omega
    have hw2 : width - d.charWidth (word.getD (j + 1) ' ') font
        = text_width d (word.take (j + 1)) font := by
      rw [tw_take_succ d word font (j + 1) hjlen] at hw
      omega
    simp only [scan_split] at h
    split at h
    · rename_i hcond
      obtain ⟨h1, h2⟩ := Prod.mk.injEq .. ▸ h
      subst h1; subst h2
      constructor
      · intro _
        refine ⟨le_refl _, hw2, ?_⟩
        rw [hw2] at hcond
        rw [hw2]
        exact hcond
      · intro i hi1 hi2; omega
    · rename_i hcond
      have hlen2 : j + 1 ≤ word.length := by omega
      obtain ⟨c1, c2⟩ := ih (width - d.charWidth (word.getD (j + 1) ' ') font)
        index2 width2 hw2 hlen2 h
      constructor
      · intro hi
        obtain ⟨d1, d2, d3⟩ := c1 hi
        exact ⟨by omega, d2, d3⟩
      · intro i hi1 hi2
        rcases Nat.lt_or_ge i (j + 1) with hc | hc
        · exact c2 i hi1 (by omega)
        · have hij : i = j + 1 := by omega
          subst hij
          rw [← hw2]
          exact hcond


theorem wl_some (d : Disp) (YMAX : Int) (font fg : Int) :
    ∀ fuel offset_x offset_y word width, (YMAX - offset_y).toNat < fuel →
      (word_loop d YMAX font fg fuel offset_x offset_y word width).isSome := by
  intro fuel
  induction fuel with
  | zero => intro x y w wd h; exact absurd h (Nat.not_lt_zero _)
  | succ n ih =>
    intro x y w wd h
    simp only [word_loop]
    split
    · split
      · simp
      · split
        · rename_i hno hsfal
          have hTL : TEXT_LINE_HEIGHT = 26 := rfl
          have hrec : (YMAX - (y + TEXT_LINE_HEIGHT)).toNat < n := by
            rw [hTL]; omega
          rcases hsc : scan_split d font d.WIDTH x (DASH d) w (w.length - 1) wd with ⟨index, width2⟩
          have := ih TEXT_MARGIN_LEFT (y + TEXT_LINE_HEIGHT) (w.drop index)
            (text_width d (w.drop index) font) hrec
          rw [Option.isSome_iff_exists] at this
          obtain ⟨⟨ds, r⟩, hv⟩ := this
          simp [hsc, hv]
        · rename_i hno hsfal
          rcases hsc : scan_split d font d.WIDTH x (ELLIPSIS d) w (w.length - 1) wd with ⟨index, width2⟩
          simp [hsc]
    · simp


theorem wl_y_mono (d : Disp) (YMAX : Int) (font fg : Int) :
    ∀ fuel offset_x offset_y word width ds x2 y2 w2 wd2,
      word_loop d YMAX font fg fuel offset_x offset_y word width
        = some (ds, some (x2, y2, w2, wd2)) →
      offset_y ≤ y2 := by
  intro fuel
  induction fuel with
  | zero => intro x y w wd ds x2 y2 w2 wd2 h; exact absurd h (by simp [word_loop])
  | succ n ih =>
    intro x y w wd ds x2 y2 w2 wd2 h
    have hTL : (0:Int) ≤ TEXT_LINE_HEIGHT := by norm_num [TEXT_LINE_HEIGHT]
    simp only [word_loop] at h
    split at h
    · split at h
      · simp at h
        obtain ⟨-, -, hy, -, -⟩ := h
        omega
      · split at h
        · rcases hsc : scan_split d font d.WIDTH x (DASH d) w (w.length - 1) wd with ⟨index, width2⟩
          rw [hsc] at h
          rcases hrec : word_loop d YMAX font fg n TEXT_MARGIN_LEFT (y + TEXT_LINE_HEIGHT)
              (w.drop index) (text_width d (w.drop index) font) with _ | ⟨ds1, r1⟩
          · rw [hrec] at h; simp at h
          · rw [hrec] at h
            simp at h
            obtain ⟨-, hr⟩ := h
            subst hr
            have := ih TEXT_MARGIN_LEFT (y + TEXT_LINE_HEIGHT) (w.drop index)
              (text_width d (w.drop index) font) ds1 x2 y2 w2 wd2 hrec
            omega
        · rcases hsc : scan_split d font d.WIDTH x (ELLIPSIS d) w (w.length - 1) wd with ⟨index, width2⟩
          rw [hsc] at h
          simp at h
    · simp at h
      obtain ⟨-, -, hy, -, -⟩ := h
      omega


theorem wl_y_inv (d : Disp) (YMAX : Int) (font fg : Int) :
    ∀ fuel offset_x offset_y word width ds r,
      word_loop d YMAX font fg fuel offset_x offset_y word width = some (ds, r) →
      offset_y ≤ YMAX → (26:Int) ∣ (YMAX - offset_y) →
      (∀ c ∈ ds, c.y ≤ YMAX) ∧
      (∀ x2 y2 w2 wd2, r = some (x2, y2, w2, wd2) →
        y2 ≤ YMAX ∧ (26:Int) ∣ (YMAX - y2)) := by
  intro fuel
  induction fuel with
  | zero => intro x y w wd ds r h _ _; exact absurd h (by simp [word_loop])
  | succ n ih =>
    intro x y w wd ds r h hy hdvd
    have hTL : TEXT_LINE_HEIGHT = (26:Int) := rfl
    simp only [word_loop] at h
    split at h
    · split at h
      · rename_i hbrk
        obtain ⟨hsfal, -⟩ := hbrk
        simp at h
        obtain ⟨hds, hr⟩ := h
        subst hds; subst hr
        refine ⟨by simp, ?_⟩
        intro x2 y2 w2 wd2 hr2
        simp at hr2
        obtain ⟨-, hy2, -, -⟩ := hr2
        constructor
        · omega
        · omega
      · split at h
        · rename_i hno hsfal
          rcases hsc : scan_split d font d.WIDTH x (DASH d) w (w.length - 1) wd with ⟨index, width2⟩
          rw [hsc] at h
          rcases hrec : word_loop d YMAX font fg n TEXT_MARGIN_LEFT (y + TEXT_LINE_HEIGHT)
              (w.drop index) (text_width d (w.drop index) font) with _ | ⟨ds1, r1⟩
          · rw [hrec] at h; simp at h
          · rw [hrec] at h
            simp at h
            obtain ⟨hds, hr⟩ := h
            subst hds; subst hr
            have hrecy : y + TEXT_LINE_HEIGHT ≤ YMAX := by omega
            have hrecd : (26:Int) ∣ (YMAX - (y + TEXT_LINE_HEIGHT)) := by omega
            obtain ⟨ih1, ih2⟩ := ih TEXT_MARGIN_LEFT (y + TEXT_LINE_HEIGHT) (w.drop index)
              (text_width d (w.drop index) font) ds1 r1 hrec hrecy hrecd
            constructor
            · intro c hc
              simp at hc
              rcases hc with hc | hc | hc
              · subst hc; simpa using hy
              · subst hc; simpa using hy
              · exact ih1 c hc
            · exact ih2
        · rename_i hno hsfal
          rcases hsc : scan_split d font d.WIDTH x (ELLIPSIS d) w (w.length - 1) wd with ⟨index, width2⟩
          rw [hsc] at h
          simp at h
          obtain ⟨hds, hr⟩ := h
          subst hds; subst hr
          refine ⟨?_, by simp⟩
          intro c hc
          simp at hc
          rcases hc with hc | hc
          · subst hc; simpa using hy
          · subst hc; simpa using hy
    · simp at h
      obtain ⟨hds, hr⟩ := h
      subst hds; subst hr
      refine ⟨by simp, ?_⟩
      intro x2 y2 w2 wd2 hr2
      simp at hr2
      obtain ⟨-, hy2, -, -⟩ := hr2
      exact ⟨by omega, by omega⟩


theorem wl_x (d : Disp) (YMAX : Int) (font fg : Int) :
    ∀ fuel offset_x offset_y word width ds r,
      word_loop d YMAX font fg fuel offset_x offset_y word width = some (ds, r) →
      width = text_width d word font →
      (∀ c ∈ ds, c.kind = DrawKind.primary → c.text ≠ [] →
        c.x + (text_width d c.text c.font : Int) ≤ d.WIDTH) ∧
      (∀ x2 y2 w2 wd2, r = some (x2, y2, w2, wd2) →
        wd2 = text_width d w2 font ∧ x2 + (wd2 : Int) ≤ d.WIDTH) := by
  intro fuel
  induction fuel with
  | zero => intro x y w wd ds r h _; exact absurd h (by simp [word_loop])
  | succ n ih =>
    intro x y w wd ds r h hwd
    have hML : TEXT_MARGIN_LEFT = (14:Int) := rfl
    simp only [word_loop] at h
    split at h
    · rename_i hcond
      split at h
      · rename_i hbrk
        obtain ⟨-, hfit⟩ := hbrk
        simp at h
        obtain ⟨hds, hr⟩ := h
        subst hds; subst hr
        refine ⟨by simp, ?_⟩
        intro x2 y2 w2 wd2 hr2
        simp at hr2
        obtain ⟨hx2, -, hw2, hwd2⟩ := hr2
        subst hw2
        refine ⟨by omega, by omega⟩
      · split at h
        · rename_i hno hsfal
          rcases hsc : scan_split d font d.WIDTH x (DASH d) w (w.length - 1) wd with ⟨index, width2⟩
          rw [hsc] at h
          rcases hrec : word_loop d YMAX font fg n TEXT_MARGIN_LEFT (y + TEXT_LINE_HEIGHT)
              (w.drop index) (text_width d (w.drop index) font) with _ | ⟨ds1, r1⟩
          · rw [hrec] at h; simp at h
          · rw [hrec] at h
            simp at h
            obtain ⟨hds, hr⟩ := h
            subst hds; subst hr
            obtain ⟨ih1, ih2⟩ := ih TEXT_MARGIN_LEFT (y + TEXT_LINE_HEIGHT) (w.drop index)
              (text_width d (w.drop index) font) ds1 r1 hrec rfl
            refine ⟨?_, ih2⟩
            intro c hc hck hct
            simp at hc
            rcases hc with hc | hc | hc
            · subst hc
              simp at hct ⊢
              have hwne : w ≠ [] := by
                intro hwnil
                subst hwnil
                simp at hct
              have hlw : 1 ≤ w.length := List.length_pos.mpr hwne
              have hw3 : wd = text_width d (w.take ((w.length - 1) + 1)) font := by
                rw [show (w.length - 1) + 1 = w.length from by omega, List.take_length]
                exact hwd
              obtain ⟨g1, -⟩ := scan_split_go d font d.WIDTH x (DASH d) w
                (w.length - 1) wd index width2 hw3 (by omega) hsc
              obtain ⟨-, e2, e3⟩ := g1 (by omega)
              rw [← e2]
              omega
            · subst hc
              simp at hck
            · exact ih1 c hc hck hct
        · rename_i hno hsfal
          rcases hsc : scan_split d font d.WIDTH x (ELLIPSIS d) w (w.length - 1) wd with ⟨index, width2⟩
          rw [hsc] at h
          simp at h
          obtain ⟨hds, hr⟩ := h
          subst hds; subst hr
          refine ⟨?_, by simp⟩
          intro c hc hck hct
          simp at hc
          rcases hc with hc | hc
          · subst hc
            simp at hct ⊢
            have hwne : w ≠ [] := by
              intro hwnil
              subst hwnil
              simp at hct
            have hlw : 1 ≤ w.length := List.length_pos.mpr hwne
            have hw3 : wd = text_width d (w.take ((w.length - 1) + 1)) font := by
              rw [show (w.length - 1) + 1 = w.length from by omega, List.take_length]
              exact hwd
            obtain ⟨g1, -⟩ := scan_split_go d font d.WIDTH x (ELLIPSIS d) w
              (w.length - 1) wd index width2 hw3 (by omega) hsc
            obtain ⟨-, e2, e3⟩ := g1 (by omega)
            rw [← e2]
            omega
          · subst hc
            simp at hck
    · rename_i hcond
      simp at h
      obtain ⟨hds, hr⟩ := h
      subst hds; subst hr
      refine ⟨by simp, ?_⟩
      intro x2 y2 w2 wd2 hr2
      simp at hr2
      obtain ⟨hx2, -, hw2, hwd2⟩ := hr2
      subst hw2
      refine ⟨by omega, by omega⟩


theorem wl_ell (d : Disp) (YMAX : Int) (font fg : Int) :
    ∀ fuel offset_x offset_y word width ds r,
      word_loop d YMAX font fg fuel offset_x offset_y word width = some (ds, r) →
      (r = none → ∃ ds0 e, ds = ds0 ++ [e] ∧ e.kind = DrawKind.ellipsis ∧
        ∀ c ∈ ds0, c.kind ≠ DrawKind.ellipsis) ∧
      (∀ p, r = some p → ∀ c ∈ ds, c.kind ≠ DrawKind.ellipsis) := by
  intro fuel
  induction fuel with
  | zero => intro x y w wd ds r h; exact absurd h (by simp [word_loop])
  | succ n ih =>
    intro x y w wd ds r h
    simp only [word_loop] at h
    split at h
    · split at h
      · simp at h
        obtain ⟨hds, hr⟩ := h
        subst hds; subst hr
        exact ⟨by simp, by simp⟩
      · split at h
        · rcases hsc : scan_split d font d.WIDTH x (DASH d) w (w.length - 1) wd with ⟨index, width2⟩
          rw [hsc] at h
          rcases hrec : word_loop d YMAX font fg n TEXT_MARGIN_LEFT (y + TEXT_LINE_HEIGHT)
              (w.drop index) (text_width d (w.drop index) font) with _ | ⟨ds1, r1⟩
          · rw [hrec] at h; simp at h
          · rw [hrec] at h
            simp at h
            obtain ⟨hds, hr⟩ := h
            subst hds; subst hr
            obtain ⟨ih1, ih2⟩ := ih TEXT_MARGIN_LEFT (y + TEXT_LINE_HEIGHT) (w.drop index)
              (text_width d (w.drop index) font) ds1 r1 hrec
            constructor
            · intro hr1
              obtain ⟨ds0, e, hsplit, hek, hds0⟩ := ih1 hr1
              refine ⟨⟨x, y, w.take index, font, fg, d.BG, DrawKind.primary⟩ ::
                ⟨x + (width2 : Int), y, dashText, d.BOLD, d.GREY, d.BG, DrawKind.marker⟩ ::
                ds0, e, by simp [hsplit], hek, ?_⟩
              intro c hc
              simp at hc
              rcases hc with hc | hc | hc
              · subst hc; simp
              · subst hc; simp
              · exact hds0 c hc
            · intro p hp c hc
              simp at hc
              rcases hc with hc | hc | hc
              · subst hc; simp
              · subst hc; simp
              · exact ih2 p hp c hc
        · rcases hsc : scan_split d font d.WIDTH x (ELLIPSIS d) w (w.length - 1) wd with ⟨index, width2⟩
          rw [hsc] at h
          simp at h
          obtain ⟨hds, hr⟩ := h
          subst hds; subst hr
          constructor
          · intro _
            exact ⟨[⟨x, y, w.take index, font, fg, d.BG, DrawKind.primary⟩],
              ⟨x + (width2 : Int), y, ellipsisText, d.BOLD, d.GREY, d.BG, DrawKind.ellipsis⟩,
              by simp, rfl, by simp⟩
          · intro p hp
            simp at hp
    · simp at h
      obtain ⟨hds, hr⟩ := h
      subst hds; subst hr
      exact ⟨by simp, by simp⟩

theorem wl_concat (d : Disp) (YMAX : Int) (font fg : Int) :
    ∀ fuel offset_x offset_y word width ds r,
      word_loop d YMAX font fg fuel offset_x offset_y word width = some (ds, r) →
      (∀ x2 y2 w2 wd2, r = some (x2, y2, w2, wd2) → concatPrimary ds ++ w2 = word) ∧
      (r = none → concatPrimary ds <+: word) := by
  intro fuel
  induction fuel with
  | zero => intro x y w wd ds r h; exact absurd h (by simp [word_loop])
  | succ n ih =>
    intro x y w wd ds r h
    simp only [word_loop] at h
    split at h
    · split at h
      · simp at h
        obtain ⟨hds, hr⟩ := h
        subst hds; subst hr
        constructor
        · intro x2 y2 w2 wd2 hr2
          simp at hr2
          obtain ⟨-, -, hw2, -⟩ := hr2
          subst hw2
          simp [concatPrimary]
        · intro hr2; simp at hr2
      · split at h
        · rcases hsc : scan_split d font d.WIDTH x (DASH d) w (w.length - 1) wd with ⟨index, width2⟩
          rw [hsc] at h
          rcases hrec : word_loop d YMAX font fg n TEXT_MARGIN_LEFT (y + TEXT_LINE_HEIGHT)
              (w.drop index) (text_width d (w.drop index) font) with _ | ⟨ds1, r1⟩
          · rw [hrec] at h; simp at h
          · rw [hrec] at h
            simp at h
            obtain ⟨hds, hr⟩ := h
            subst hds; subst hr
            obtain ⟨ih1, ih2⟩ := ih TEXT_MARGIN_LEFT (y + TEXT_LINE_HEIGHT) (w.drop index)
              (text_width d (w.drop index) font) ds1 r1 hrec
            constructor
            · intro x2 y2 w2 wd2 hr2
              have hc1 := ih1 x2 y2 w2 wd2 hr2
              simp [concatPrimary, dashText]
              rw [hc1, List.take_append_drop]
            · intro hr1
              obtain ⟨s, hs⟩ := ih2 hr1
              refine ⟨s, ?_⟩
              simp [concatPrimary, dashText]
              rw [hs, List.take_append_drop]
        · rcases hsc : scan_split d font d.WIDTH x (ELLIPSIS d) w (w.length - 1) wd with ⟨index, width2⟩
          rw [hsc] at h
          simp at h
          obtain ⟨hds, hr⟩ := h
          subst hds; subst hr
          constructor
          · intro x2 y2 w2 wd2 hr2; simp at hr2
          · intro _
            refine ⟨w.drop index, ?_⟩
            simp [concatPrimary, ellipsisText]
    · simp at h
      obtain ⟨hds, hr⟩ := h
      subst hds; subst hr
      constructor
      · intro x2 y2 w2 wd2 hr2
        simp at hr2
        obtain ⟨-, -, hw2, -⟩ := hr2
        subst hw2
        simp [concatPrimary]
      · intro hr2; simp at hr2


theorem dw_some (d : Disp) (YMAX : Int) (nl : Bool) (font fg : Int)
    (fuel : Nat) (offset_x offset_y : Int) (word : List Char)
    (h : (YMAX - offset_y).toNat < fuel) :
    (do_word d YMAX nl fuel font fg offset_x offset_y word).isSome := by
  have := wl_some d YMAX font fg fuel offset_x offset_y word (text_width d word font) h
  rw [Option.isSome_iff_exists] at this
  obtain ⟨⟨ds, r⟩, hv⟩ := this
  rcases r with _ | ⟨x2, y2, w2, wd2⟩
  · simp [do_word, hv]
  · simp only [do_word, hv]
    split
    · split
      · simp
      · simp
    · simp

theorem dw_y_mono (d : Disp) (YMAX : Int) (nl : Bool) (font fg : Int)
    (fuel : Nat) (offset_x offset_y : Int) (word : List Char) (ds : List DrawCall)
    (x2 y2 : Int)
    (h : do_word d YMAX nl fuel font fg offset_x offset_y word = some (ds, some (x2, y2))) :
    offset_y ≤ y2 := by
  have hTL : TEXT_LINE_HEIGHT = (26:Int) := rfl
  rcases hwl : word_loop d YMAX font fg fuel offset_x offset_y word
      (text_width d word font) with _ | ⟨ds1, r1⟩
  · simp [do_word, hwl] at h
  · rcases r1 with _ | ⟨x3, y3, w3, wd3⟩
    · simp [do_word, hwl] at h
    · have hmono := wl_y_mono d YMAX font fg fuel offset_x offset_y word
        (text_width d word font) ds1 x3 y3 w3 wd3 hwl
      simp only [do_word, hwl] at h
      split at h
      · split at h
        · simp at h
        · simp at h
          obtain ⟨-, -, hy⟩ := h
          omega
      · simp at h
        obtain ⟨-, -, hy⟩ := h
        omega

theorem dw_y_inv (d : Disp) (YMAX : Int) (nl : Bool) (font fg : Int)
    (fuel : Nat) (offset_x offset_y : Int) (word : List Char) (ds : List DrawCall)
    (r : Option (Int × Int))
    (h : do_word d YMAX nl fuel font fg offset_x offset_y word = some (ds, r))
    (hy : offset_y ≤ YMAX) (hdvd : (26:Int) ∣ (YMAX - offset_y)) :
    (∀ c ∈ ds, c.y ≤ YMAX) ∧
    (∀ x2 y2, r = some (x2, y2) → y2 ≤ YMAX ∧ (26:Int) ∣ (YMAX - y2)) := by
  have hTL : TEXT_LINE_HEIGHT = (26:Int) := rfl
  rcases hwl : word_loop d YMAX font fg fuel offset_x offset_y word
      (text_width d word font) with _ | ⟨ds1, r1⟩
  · simp [do_word, hwl] at h
  · obtain ⟨i1, i2⟩ := wl_y_inv d YMAX font fg fuel offset_x offset_y word
      (text_width d word font) ds1 r1 hwl hy hdvd
    rcases r1 with _ | ⟨x3, y3, w3, wd3⟩
    · simp [do_word, hwl] at h
      obtain ⟨hds, hr⟩ := h
      subst hds; subst hr
      exact ⟨i1, by simp⟩
    · obtain ⟨hy3, hd3⟩ := i2 x3 y3 w3 wd3 rfl
      simp only [do_word, hwl] at h
      split at h
      · split at h
        · rename_i hny
          simp at h
          obtain ⟨hds, hr⟩ := h
          subst hds; subst hr
          refine ⟨?_, by simp⟩
          intro c hc
          simp at hc
          rcases hc with hc | hc | hc
          · exact i1 c hc
          · subst hc; simpa using hy3
          · subst hc; simpa using hy3
        · rename_i hny
          simp at h
          obtain ⟨hds, hr⟩ := h
          subst hds; subst hr
          constructor
          · intro c hc
            simp at hc
            rcases hc with hc | hc
            · exact i1 c hc
            · subst hc; simpa using hy3
          · intro x4 y4 hr4
            simp at hr4
            obtain ⟨-, hy4⟩ := hr4
            constructor
            · simp at hny
              omega
            · omega
      · simp at h
        obtain ⟨hds, hr⟩ := h
        subst hds; subst hr
        constructor
        · intro c hc
          simp at hc
          rcases hc with hc | hc
          · exact i1 c hc
          · subst hc; simpa using hy3
        · intro x4 y4 hr4
          simp at hr4
          obtain ⟨-, hy4⟩ := hr4
          exact ⟨by omega, by omega⟩


theorem dw_x (d : Disp) (YMAX : Int) (nl : Bool) (font fg : Int)
    (fuel : Nat) (offset_x offset_y : Int) (word : List Char) (ds : List DrawCall)
    (r : Option (Int × Int))
    (h : do_word d YMAX nl fuel font fg offset_x offset_y word = some (ds, r)) :
    ∀ c ∈ ds, c.kind = DrawKind.primary → c.text ≠ [] →
      c.x + (text_width d c.text c.font : Int) ≤ d.WIDTH := by
  rcases hwl : word_loop d YMAX font fg fuel offset_x offset_y word
      (text_width d word font) with _ | ⟨ds1, r1⟩
  · simp [do_word, hwl] at h
  · obtain ⟨i1, i2⟩ := wl_x d YMAX font fg fuel offset_x offset_y word
      (text_width d word font) ds1 r1 hwl rfl
    rcases r1 with _ | ⟨x3, y3, w3, wd3⟩
    · simp [do_word, hwl] at h
      obtain ⟨hds, -⟩ := h
      subst hds
      exact i1
    · obtain ⟨hwd3, hx3⟩ := i2 x3 y3 w3 wd3 rfl
      have hword : x3 + (text_width d w3 font : Int) ≤ d.WIDTH := by rw [← hwd3]; exact hx3
      simp only [do_word, hwl] at h
      split at h
      · split at h
        · simp at h
          obtain ⟨hds, -⟩ := h
          subst hds
          intro c hc hck hct
          simp at hc
          rcases hc with hc | hc | hc
          · exact i1 c hc hck hct
          · subst hc; simpa using hword
          · subst hc; simp at hck
        · simp at h
          obtain ⟨hds, -⟩ := h
          subst hds
          intro c hc hck hct
          simp at hc
          rcases hc with hc | hc
          · exact i1 c hc hck hct
          · subst hc; simpa using hword
      · simp at h
        obtain ⟨hds, -⟩ := h
        subst hds
        intro c hc hck hct
        simp at hc
        rcases hc with hc | hc
        · exact i1 c hc hck hct
        · subst hc; simpa using hword

theorem dw_ell (d : Disp) (YMAX : Int) (nl : Bool) (font fg : Int)
    (fuel : Nat) (offset_x offset_y : Int) (word : List Char) (ds : List DrawCall)
    (r : Option (Int × Int))
    (h : do_word d YMAX nl fuel font fg offset_x offset_y word = some (ds, r)) :
    (r = none → ∃ ds0 e, ds = ds0 ++ [e] ∧ e.kind = DrawKind.ellipsis ∧
      ∀ c ∈ ds0, c.kind ≠ DrawKind.ellipsis) ∧
    (∀ p, r = some p → ∀ c ∈ ds, c.kind ≠ DrawKind.ellipsis) := by
  rcases hwl : word_loop d YMAX font fg fuel offset_x offset_y word
      (text_width d word font) with _ | ⟨ds1, r1⟩
  · simp [do_word, hwl] at h
  · obtain ⟨e1, e2⟩ := wl_ell d YMAX font fg fuel offset_x offset_y word
      (text_width d word font) ds1 r1 hwl
    rcases r1 with _ | ⟨x3, y3, w3, wd3⟩
    · simp [do_word, hwl] at h
      obtain ⟨hds, hr⟩ := h
      subst hds; subst hr
      exact ⟨fun _ => e1 rfl, by simp⟩
    · have hnoell : ∀ c ∈ ds1, c.kind ≠ DrawKind.ellipsis :=
        e2 (x3, y3, w3, wd3) rfl
      simp only [do_word, hwl] at h
      split at h
      · split at h
        · simp at h
          obtain ⟨hds, hr⟩ := h
          subst hds; subst hr
          constructor
          · intro _
            refine ⟨ds1 ++ [⟨x3, y3, w3, font, fg, d.BG, DrawKind.primary⟩],
              ⟨x3 + (wd3 : Int) + (SPACE d : Int), y3,
                ellipsisText, d.BOLD, d.GREY, d.BG, DrawKind.ellipsis⟩, by simp, rfl, ?_⟩
            intro c hc
            simp at hc
            rcases hc with hc | hc
            · exact hnoell c hc
            · subst hc; simp
          · intro p hp; simp at hp
        · simp at h
          obtain ⟨hds, hr⟩ := h
          subst hds; subst hr
          constructor
          · intro hcon; simp at hcon
          · intro p hp c hc
            simp at hc
            rcases hc with hc | hc
            · exact hnoell c hc
            · subst hc; simp
      · simp at h
        obtain ⟨hds, hr⟩ := h
        subst hds; subst hr
        constructor
        · intro hcon; simp at hcon
        · intro p hp c hc
          simp at hc
          rcases hc with hc | hc
          · exact hnoell c hc
          · subst hc; simp


theorem aux_some (d : Disp) (YMAX : Int) (nl : Bool) (fuel : Nat) :
    ∀ ws font fg offset_x offset_y, (YMAX - offset_y).toNat < fuel →
      (render_words_aux d YMAX nl fuel ws font fg offset_x offset_y).isSome := by
  intro ws
  induction ws with
  | nil => intro font fg x y h; simp [render_words_aux]
  | cons t ws ih =>
    intro font fg x y h
    have hTL : TEXT_LINE_HEIGHT = (26:Int) := rfl
    rcases t with n | w
    · simp only [render_words_aux]
      split
      · split
        · simp
        · exact ih font fg TEXT_MARGIN_LEFT (y + TEXT_LINE_HEIGHT) (by rw [hTL]; omega)
      · split
        · exact ih n fg x y h
        · exact ih font n x y h
    · have hdw := dw_some d YMAX nl font fg fuel x y w h
      rw [Option.isSome_iff_exists] at hdw
      obtain ⟨⟨ds, r⟩, hv⟩ := hdw
      rcases r with _ | ⟨x2, y2⟩
      · simp [render_words_aux, hv]
      · have hy2 := dw_y_mono d YMAX nl font fg fuel x y w ds x2 y2 hv
        have := ih font fg x2 y2 (by omega)
        rw [Option.isSome_iff_exists] at this
        obtain ⟨rest, hrest⟩ := this
        simp [render_words_aux, hv, hrest]

theorem aux_y_inv (d : Disp) (YMAX : Int) (nl : Bool) (fuel : Nat) :
    ∀ ws font fg offset_x offset_y t,
      render_words_aux d YMAX nl fuel ws font fg offset_x offset_y = some t →
      offset_y ≤ YMAX → (26:Int) ∣ (YMAX - offset_y) →
      ∀ c ∈ t, c.y ≤ YMAX := by
  intro ws
  induction ws with
  | nil => intro font fg x y t h _ _; simp [render_words_aux] at h; subst h; simp
  | cons tok ws ih =>
    intro font fg x y t h hy hdvd
    have hTL : TEXT_LINE_HEIGHT = (26:Int) := rfl
    rcases tok with n | w
    · simp only [render_words_aux] at h
      split at h
      · split at h
        · simp at h
          subst h
          intro c hc
          simp at hc
          subst hc
          simpa using hy
        · exact ih font fg TEXT_MARGIN_LEFT (y + TEXT_LINE_HEIGHT) t h
            (by rename_i hlt; simp at hlt; omega) (by omega)
      · split at h
        · exact ih n fg x y t h hy hdvd
        · exact ih font n x y t h hy hdvd
    · rcases hdw : do_word d YMAX nl fuel font fg x y w with _ | ⟨ds, r⟩
      · simp [render_words_aux, hdw] at h
      · obtain ⟨i1, i2⟩ := dw_y_inv d YMAX nl font fg fuel x y w ds r hdw hy hdvd
        rcases r with _ | ⟨x2, y2⟩
        · simp [render_words_aux, hdw] at h
          subst h
          exact i1
        · obtain ⟨hy2, hd2⟩ := i2 x2 y2 rfl
          rcases hrest : render_words_aux d YMAX nl fuel ws font fg x2 y2 with _ | rest
          · simp [render_words_aux, hdw, hrest] at h
          · simp [render_words_aux, hdw, hrest] at h
            subst h
            intro c hc
            simp at hc
            rcases hc with hc | hc
            · exact i1 c hc
            · exact ih font fg x2 y2 rest hrest hy2 hd2 c hc

theorem aux_x (d : Disp) (YMAX : Int) (nl : Bool) (fuel : Nat) :
    ∀ ws font fg offset_x offset_y t,
      render_words_aux d YMAX nl fuel ws font fg offset_x offset_y = some t →
      ∀ c ∈ t, c.kind = DrawKind.primary → c.text ≠ [] →
        c.x + (text_width d c.text c.font : Int) ≤ d.WIDTH := by
  intro ws
  induction ws with
  | nil => intro font fg x y t h; simp [render_words_aux] at h; subst h; simp
  | cons tok ws ih =>
    intro font fg x y t h
    rcases tok with n | w
    · simp only [render_words_aux] at h
      split at h
      · split at h
        · simp at h
          subst h
          intro c hc hck
          simp at hc
          subst hc
          simp at hck
        · exact ih font fg TEXT_MARGIN_LEFT (y + TEXT_LINE_HEIGHT) t h
      · split at h
        · exact ih n fg x y t h
        · exact ih font n x y t h
    · rcases hdw : do_word d YMAX nl fuel font fg x y w with _ | ⟨ds, r⟩
      · simp [render_words_aux, hdw] at h
      · have i1 := dw_x d YMAX nl font fg fuel x y w ds r hdw
        rcases r with _ | ⟨x2, y2⟩
        · simp [render_words_aux, hdw] at h
          subst h
          exact i1
        · rcases hrest : render_words_aux d YMAX nl fuel ws font fg x2 y2 with _ | rest
          · simp [render_words_aux, hdw, hrest] at h
          · simp [render_words_aux, hdw, hrest] at h
            subst h
            intro c hc
            simp at hc
            rcases hc with hc | hc
            · exact i1 c hc
            · exact ih font fg x2 y2 rest hrest c hc

theorem aux_ell (d : Disp) (YMAX : Int) (nl : Bool) (fuel : Nat) :
    ∀ ws font fg offset_x offset_y t,
      render_words_aux d YMAX nl fuel ws font fg offset_x offset_y = some t →
      (∀ c ∈ t, c.kind ≠ DrawKind.ellipsis) ∨
      (∃ t0 e, t = t0 ++ [e] ∧ e.kind = DrawKind.ellipsis ∧
        ∀ c ∈ t0, c.kind ≠ DrawKind.ellipsis) := by
  intro ws
  induction ws with
  | nil => intro font fg x y t h; simp [render_words_aux] at h; subst h; left; simp
  | cons tok ws ih =>
    intro font fg x y t h
    rcases tok with n | w
    · simp only [render_words_aux] at h
      split at h
      · split at h
        · simp at h
          subst h
          right
          exact ⟨[], ⟨x, y, ellipsisText, d.BOLD, d.GREY, d.BG, DrawKind.ellipsis⟩,
            by simp, rfl, by simp⟩
        · exact ih font fg TEXT_MARGIN_LEFT (y + TEXT_LINE_HEIGHT) t h
      · split at h
        · exact ih n fg x y t h
        · exact ih font n x y t h
    · rcases hdw : do_word d YMAX nl fuel font fg x y w with _ | ⟨ds, r⟩
      · simp [render_words_aux, hdw] at h
      · obtain ⟨e1, e2⟩ := dw_ell d YMAX nl font fg fuel x y w ds r hdw
        rcases r with _ | ⟨x2, y2⟩
        · simp [render_words_aux, hdw] at h
          subst h
          right
          exact e1 rfl
        · have hnoell := e2 (x2, y2) rfl
          rcases hrest : render_words_aux d YMAX nl fuel ws font fg x2 y2 with _ | rest
          · simp [render_words_aux, hdw, hrest] at h
          · simp [render_words_aux, hdw, hrest] at h
            subst h
            rcases ih font fg x2 y2 rest hrest with hcase | ⟨t0, e, hsplit, hek, ht0⟩
            · left
              intro c hc
              simp at hc
              rcases hc with hc | hc
              · exact hnoell c hc
              · exact hcase c hc
            · right
              refine ⟨ds ++ t0, e, by simp [hsplit], hek, ?_⟩
              intro c hc
              simp at hc
              rcases hc with hc | hc
              · exact hnoell c hc
              · exact ht0 c hc


theorem wl_exit (d : Disp) (YMAX font fg : Int) (m : Nat) (x y : Int) (w : List Char)
    (wd : Nat)
    (hfit : ¬ x + (wd : Int) + (SPACE d : Int) + (ELLIPSIS d : Int) > d.WIDTH) :
    word_loop d YMAX font fg (m + 1) x y w wd = some ([], some (x, y, w, wd)) := by
  simp only [word_loop]
  rw [if_neg hfit]

theorem concatPrimary_append (a b : List DrawCall) :
    concatPrimary (a ++ b) = concatPrimary a ++ concatPrimary b := by
  induction a with
  | nil => simp [concatPrimary]
  | cons c l ih => simp [concatPrimary, ih]

/-- Claim C1: for every finite token list, every boolean `new_lines` and every
`max_lines` (in particular every positive one), `render_words` terminates and
returns a trace: the fueled embedding never exhausts its fuel, including on
adversarial inputs such as over-wide words repeated to fill all lines and
configurations in which the backward split scan falls back to index 0 and
hands the whole word back to the next iteration of the fit loop (each
continuing iteration still advances `offset_y` by `TEXT_LINE_HEIGHT = 26`). -/
theorem C1_render_words_terminates (d : Disp) (ws : List Token) (nl : Bool) (ml : Int) :
    (render_words d ws nl ml).isSome := by
  simp only [render_words, init_fuel]
  exact aux_some d (OFFSET_Y_MAX ml) nl _ ws d.NORMAL d.FG TEXT_MARGIN_LEFT
    (TEXT_HEADER_HEIGHT + TEXT_LINE_HEIGHT) (Nat.lt_succ_self _)

/-- Claim C2, amended: during one `render_words` pass with `max_lines ≥ 1`, no
draw call at all (primary run, split marker or truncation ellipsis) is issued
at a y-coordinate strictly greater than the bottom boundary
`OFFSET_Y_MAX max_lines`; draws exactly at the boundary are the last visible
line (amended because the last line's runs sit exactly at the boundary, see
the counterexample). -/
theorem C2_vertical_containment (d : Disp) (ws : List Token) (nl : Bool) (ml : Int) (t : List DrawCall)
    (hml : 1 ≤ ml) (h : render_words d ws nl ml = some t) :
    ∀ c ∈ t, c.y ≤ OFFSET_Y_MAX ml := by
  have hY : OFFSET_Y_MAX ml = 48 + 26 * ml := rfl
  refine aux_y_inv d (OFFSET_Y_MAX ml) nl (init_fuel ml) ws d.NORMAL d.FG TEXT_MARGIN_LEFT
    (TEXT_HEADER_HEIGHT + TEXT_LINE_HEIGHT) t h ?_ ?_
  · show (48:Int) + 26 ≤ OFFSET_Y_MAX ml
    omega
  · show (26:Int) ∣ (OFFSET_Y_MAX ml - (48 + 26))
    omega

/-- Claim C2 counterexample: with `max_lines = 1` the single visible line sits
exactly at the bottom boundary `OFFSET_Y_MAX 1 = 74`, and the word draw, a
primary text run, is issued at `y = 74 ≥ OFFSET_Y_MAX 1` - so, as stated, the
claim that no primary run is ever drawn at `y ≥` the bottom boundary is false
at this concrete input. -/
theorem C2_counterexample :
    render_words dA [Token.word ['a']] false 1
      = some [⟨14, 74, ['a'], 0, 100, 0, DrawKind.primary⟩] ∧
    OFFSET_Y_MAX 1 ≤ 74 := by
  constructor
  · decide
  · decide

/-- Claim C4: for every word token processed by `render_words` (modelled by
`do_word`, which covers the fit loop, the final word draw and the implicit
break), concatenating the drawn primary spans in drawing order - excluding
the dash/ellipsis split markers - yields a leading part of the original
word, and when the pass is not truncated while processing the token (the
cursor is handed to the next token) the concatenation reconstructs the word
exactly: no character dropped or duplicated, except the unconsumed suffix
when the pass terminates because no further line is available. -/
theorem C4_split_reconstruction (d : Disp) (YMAX : Int) (nl : Bool) (fuel : Nat)
    (font fg offset_x offset_y : Int) (word : List Char) (ds : List DrawCall)
    (r : Option (Int × Int))
    (h : do_word d YMAX nl fuel font fg offset_x offset_y word = some (ds, r)) :
    concatPrimary ds <+: word ∧ (∀ p, r = some p → concatPrimary ds = word) := by
  rcases hwl : word_loop d YMAX font fg fuel offset_x offset_y word
      (text_width d word font) with _ | ⟨ds1, r1⟩
  · simp [do_word, hwl] at h
  · obtain ⟨k1, k2⟩ := wl_concat d YMAX font fg fuel offset_x offset_y word
      (text_width d word font) ds1 r1 hwl
    rcases r1 with _ | ⟨x3, y3, w3, wd3⟩
    · simp [do_word, hwl] at h
      obtain ⟨hds, hr⟩ := h
      subst hds; subst hr
      exact ⟨k2 rfl, by simp⟩
    · have hk := k1 x3 y3 w3 wd3 rfl
      simp only [do_word, hwl] at h
      split at h
      · split at h
        · simp at h
          obtain ⟨hds, hr⟩ := h
          subst hds; subst hr
          constructor
          · rw [concatPrimary_append]
            simp [concatPrimary]
            rw [hk]
          · intro p hp; simp at hp
        · simp at h
          obtain ⟨hds, hr⟩ := h
          subst hds; subst hr
          constructor
          · rw [concatPrimary_append]
            simp [concatPrimary]
            rw [hk]
          · intro p hp
            rw [concatPrimary_append]
            simp [concatPrimary]
            exact hk
      · simp at h
        obtain ⟨hds, hr⟩ := h
        subst hds; subst hr
        constructor
        · rw [concatPrimary_append]
          simp [concatPrimary]
          rw [hk]
        · intro p hp
          rw [concatPrimary_append]
          simp [concatPrimary]
          exact hk


/-- Claim C3, amended: in the word fit loop of `render_words`, whenever
another line is available (`offset_y < OFFSET_Y_MAX`) and the whole word
would fit alone on a fresh line (`width < OFFSET_X_MAX - TEXT_MARGIN_LEFT`),
the engine resets x to the left margin, advances y by one line height, and
exits the fit loop (Python `break`, text.py line 54), handing the full word
unchanged to the draw step without re-evaluating the while-loop fit
condition. -/
theorem C3_wrap_exits_fit_loop (d : Disp) (YMAX font fg : Int) (fuel : Nat) (offset_x offset_y : Int)
    (word : List Char) (width : Nat)
    (h1 : offset_x + (width : Int) + (SPACE d : Int) + (ELLIPSIS d : Int) > d.WIDTH)
    (h2 : offset_y < YMAX) (h3 : (width : Int) < d.WIDTH - TEXT_MARGIN_LEFT) :
    word_loop d YMAX font fg (fuel + 1) offset_x offset_y word width
      = some ([], some (TEXT_MARGIN_LEFT, offset_y + TEXT_LINE_HEIGHT, word, width)) := by
  simp only [word_loop]
  rw [if_pos h1, if_pos ⟨h2, h3⟩]

/-- Claim C3 counterexample: a 20-glyph word (width 200) fails the fit check
at the start of a line (14 + 200 + 10 + 30 > 240) but fits in one line alone
(200 < 226).  The code wraps and then draws the full word immediately - one
single draw - even though the fit condition still holds at the fresh-line
cursor; the spec-faithful variant `render_words_specC3`, which re-evaluates
the `while` condition as the claim states, instead consumes the remaining
lines and splits, producing two draws.  So the claim that the condition is
re-evaluated with the full word before it is drawn is false on the code. -/
theorem C3_counterexample :
    TEXT_MARGIN_LEFT + (text_width dA (List.replicate 20 'a') dA.NORMAL : Int)
        + (SPACE dA : Int) + (ELLIPSIS dA : Int) > dA.WIDTH ∧
    render_words dA [Token.word (List.replicate 20 'a')] false 4
      = some [⟨14, 100, List.replicate 20 'a', 0, 100, 0, DrawKind.primary⟩] ∧
    ((render_words_specC3 dA [Token.word (List.replicate 20 'a')] false 4).getD []).length
      = 2 := by
  refine ⟨by decide, by decide, by decide⟩

/-- Witness for C3: the amended theorem applied at a concrete input. -/
theorem C3_wrap_exits_fit_loop_witness :
    word_loop dA 152 0 100 (78 + 1) 14 74 (List.replicate 20 'a') 200
      = some ([], some (TEXT_MARGIN_LEFT, 74 + TEXT_LINE_HEIGHT, List.replicate 20 'a', 200)) :=
  C3_wrap_exits_fit_loop dA 152 0 100 78 14 74 (List.replicate 20 'a') 200 (by decide) (by decide) (by decide)

/-- Claim C5, amended: every nonempty primary text run drawn by
`render_words` (a word after the fit loop exits, or a split-off span)
satisfies: its start x plus its measured width under the active font is at
most the region width; only the zero-width empty span of the index-0
fallback (and the split-marker/ellipsis runs, which may occupy the reserved
margin) can be emitted past the right boundary (amended to except empty
spans, see the counterexample). -/
theorem C5_boundary_containment (d : Disp) (ws : List Token) (nl : Bool) (ml : Int) (t : List DrawCall)
    (h : render_words d ws nl ml = some t) :
    ∀ c ∈ t, c.kind = DrawKind.primary → c.text ≠ [] →
      c.x + (text_width d c.text c.font : Int) ≤ d.WIDTH :=
  aux_x d (OFFSET_Y_MAX ml) nl (init_fuel ml) ws d.NORMAL d.FG TEXT_MARGIN_LEFT
    (TEXT_HEADER_HEIGHT + TEXT_LINE_HEIGHT) t h

/-- Claim C5 counterexample: after a wrap-exit of the fit loop the cursor can
pass the right boundary (first word of width 220 leaves `offset_x = 244 >
240`), and the next over-wide word then triggers a split whose backward scan
finds no fitting index, falls back to 0, and draws an empty primary span at
`x = 244` with `244 + 0 > 240 = WIDTH` - so, as stated, the claim that every
primary run satisfies start x plus measured width at most the region width
is false at this concrete input. -/
theorem C5_counterexample :
    ((render_words dA [Token.word (List.replicate 22 'a'), Token.word (List.replicate 23 'a')]
        false 4).getD [])[1]? = some ⟨244, 100, [], 0, 100, 0, DrawKind.primary⟩ ∧
    dA.WIDTH < (244 : Int) + (text_width dA [] 0 : Int) := by
  refine ⟨by decide, by decide⟩

/-- Claim C6: in any single `render_words` pass the truncation ellipsis is
drawn at most once, and every truncation-ellipsis draw is the last draw call
of the pass: no further token is processed and no further draw is issued
after it. -/
theorem C6_ellipsis_terminal (d : Disp) (ws : List Token) (nl : Bool) (ml : Int) (t : List DrawCall)
    (h : render_words d ws nl ml = some t) :
    (t.filter fun c => c.kind = DrawKind.ellipsis).length ≤ 1 ∧
    ∀ c ∈ t.dropLast, c.kind ≠ DrawKind.ellipsis := by
  rcases aux_ell d (OFFSET_Y_MAX ml) nl (init_fuel ml) ws d.NORMAL d.FG TEXT_MARGIN_LEFT
      (TEXT_HEADER_HEIGHT + TEXT_LINE_HEIGHT) t h with hno | ⟨t0, e, hsplit, hek, ht0⟩
  · constructor
    · have : t.filter (fun c => c.kind = DrawKind.ellipsis) = [] := by
        rw [List.filter_eq_nil_iff]
        intro a ha
        simp [hno a ha]
      rw [this]
      simp
    · intro c hc
      exact hno c (List.dropLast_sublist t |>.subset hc)
  · subst hsplit
    constructor
    · rw [List.filter_append]
      have h0 : t0.filter (fun c => c.kind = DrawKind.ellipsis) = [] := by
        rw [List.filter_eq_nil_iff]
        intro a ha
        simp [ht0 a ha]
      rw [h0]
      simp [List.filter, hek]
    · intro c hc
      rw [List.dropLast_concat] at hc
      exact ht0 c hc


/-- Claim C7: when a word must be split on the current line, the split index
chosen by the backward scan is the largest index i with
`1 ≤ i ≤ len(word) - 1` such that `offset_x` plus the running width of the
word's first i characters plus the split marker's width is strictly less
than the right boundary; if no index in that range satisfies this by the
time the scan reaches the first character, the split index falls back to 0
(the entire word is deferred to the next line/iteration). -/
theorem C7_split_index_characterization (d : Disp) (font offset_x : Int) (splitw : Nat) (word : List Char) :
    (1 ≤ split_index d font offset_x splitw word →
      split_index d font offset_x splitw word + 1 ≤ word.length ∧
      offset_x + (text_width d (word.take (split_index d font offset_x splitw word)) font : Int)
        + (splitw : Int) < d.WIDTH) ∧
    (∀ i, split_index d font offset_x splitw word < i → i + 1 ≤ word.length →
      ¬ offset_x + (text_width d (word.take i) font : Int) + (splitw : Int) < d.WIDTH) := by
  by_cases hw : word = []
  · subst hw
    constructor
    · intro hcon
      simp [split_index, scan_split] at hcon
    · intro i hi1 hi2
      simp at hi2
  · have hlw : 1 ≤ word.length := List.length_pos.mpr hw
    rcases hsc : scan_split d font d.WIDTH offset_x splitw word (word.length - 1)
        (text_width d word font) with ⟨i2, w2⟩
    have hw3 : text_width d word font
        = text_width d (word.take ((word.length - 1) + 1)) font := by
      rw [show (word.length - 1) + 1 = word.length from by omega, List.take_length]
    obtain ⟨g1, g2⟩ := scan_split_go d font d.WIDTH offset_x splitw word (word.length - 1)
      (text_width d word font) i2 w2 hw3 (by omega) hsc
    have hsi : split_index d font offset_x splitw word = i2 := by
      simp [split_index, hsc]
    rw [hsi]
    constructor
    · intro h1
      obtain ⟨e1, e2, e3⟩ := g1 h1
      refine ⟨by omega, ?_⟩
      rw [← e2]
      exact e3
    · intro i hi1 hi2
      exact g2 i hi1 (by omega)

/-- Claim C8: processing an integer token different from the line-break
sentinel `BR = -256` - one of the three font ids, or any other integer,
which is treated as a foreground color change - issues no draw call, leaves
the cursor `(offset_x, offset_y)` unchanged, and updates only the active
font (when the integer is a font id) or only the foreground color
(otherwise): the pass continues on the remaining tokens with exactly that
state. -/
theorem C8_style_token_no_draw (d : Disp) (YMAX : Int) (nl : Bool) (fuel : Nat) (ws : List Token)
    (n font fg offset_x offset_y : Int) (h : n ≠ BR) :
    render_words_aux d YMAX nl fuel (Token.num n :: ws) font fg offset_x offset_y =
      render_words_aux d YMAX nl fuel ws
        (if n = d.NORMAL ∨ n = d.BOLD ∨ n = d.MONO then n else font)
        (if n = d.NORMAL ∨ n = d.BOLD ∨ n = d.MONO then fg else n)
        offset_x offset_y := by
  simp only [render_words_aux]
  rw [if_neg h]
  by_cases hf : n = d.NORMAL ∨ n = d.BOLD ∨ n = d.MONO
  · rw [if_pos hf, if_pos hf, if_pos hf]
  · rw [if_neg hf, if_neg hf, if_neg hf]

/-- Claim C9: `render_words` is deterministic - two invocations with the same
display (hence the same deterministic measurement function), token sequence,
`new_lines` and `max_lines` produce the same draw-call trace - and
`Text.render` is idempotent: invoked twice on an unmodified widget it
produces identical output and leaves every stored field of the widget
unchanged (the embedding is a pure function because the display
collaborator's measurement is pure per the spec). -/
theorem C9_render_deterministic (d : Disp) (ws : List Token) (nl : Bool) (ml : Int) (t : Text) :
    render_words d ws nl ml = render_words d ws nl ml ∧
    Text.render d t = Text.render d t ∧ (Text.render d t).2 = t :=
  ⟨rfl, rfl, rfl⟩

theorem aux_word_head (d : Disp) (YMAX : Int) (nl : Bool) (m : Nat) (ws : List Token)
    (font fg offset_x offset_y : Int) (w : List Char)
    (hfit : ¬ offset_x + (text_width d w font : Int) + (SPACE d : Int)
      + (ELLIPSIS d : Int) > d.WIDTH)
    (hcont : (YMAX - offset_y).toNat ≤ m) :
    ∃ rest, render_words_aux d YMAX nl (m + 1) (Token.word w :: ws) font fg
        offset_x offset_y
      = some (⟨offset_x, offset_y, w, font, fg, d.BG, DrawKind.primary⟩ :: rest) := by
  have hTL : TEXT_LINE_HEIGHT = (26:Int) := rfl
  have hdw : do_word d YMAX nl (m + 1) font fg offset_x offset_y w
      = (if nl then
          (if ¬ offset_y < YMAX then
            some ([⟨offset_x, offset_y, w, font, fg, d.BG, DrawKind.primary⟩,
              ⟨offset_x + (text_width d w font : Int) + (SPACE d : Int), offset_y,
                ellipsisText, d.BOLD, d.GREY, d.BG, DrawKind.ellipsis⟩], none)
          else
            some ([⟨offset_x, offset_y, w, font, fg, d.BG, DrawKind.primary⟩],
              some (TEXT_MARGIN_LEFT, offset_y + TEXT_LINE_HEIGHT)))
        else
          some ([⟨offset_x, offset_y, w, font, fg, d.BG, DrawKind.primary⟩],
            some (offset_x + (text_width d w font : Int) + (SPACE d : Int), offset_y))) := by
    simp only [do_word, wl_exit d YMAX font fg m offset_x offset_y w
      (text_width d w font) hfit]
    split
    · split
      · simp
      · simp
    · simp
  cases nl with
  | true =>
    by_cases hy : offset_y < YMAX
    · have hrest := aux_some d YMAX true (m + 1) ws font fg TEXT_MARGIN_LEFT
        (offset_y + TEXT_LINE_HEIGHT) (by rw [hTL]; omega)
      rw [Option.isSome_iff_exists] at hrest
      obtain ⟨rest, hr⟩ := hrest
      refine ⟨rest, ?_⟩
      simp [render_words_aux, hdw, hy, hr]
    · refine ⟨[⟨offset_x + (text_width d w font : Int) + (SPACE d : Int), offset_y,
        ellipsisText, d.BOLD, d.GREY, d.BG, DrawKind.ellipsis⟩], ?_⟩
      simp [render_words_aux, hdw, hy]
  | false =>
    have hrest := aux_some d YMAX false (m + 1) ws font fg
      (offset_x + (text_width d w font : Int) + (SPACE d : Int)) offset_y (by omega)
    rw [Option.isSome_iff_exists] at hrest
    obtain ⟨rest, hr⟩ := hrest
    refine ⟨rest, ?_⟩
    simp [render_words_aux, hdw, hr]


/-- Claim C10: for any `max_lines` - in particular zero or negative ones,
where the bottom boundary lies above the first line - `render_words` still
draws a leading word that passes the horizontal fit check at the first line
position `(TEXT_MARGIN_LEFT, TEXT_HEADER_HEIGHT + TEXT_LINE_HEIGHT)` as the
first draw of the pass: vertical truncation is enforced only at line-break,
implicit-break and word-split decision points, never before the first
draw. -/
theorem C10_first_draw_before_truncation (d : Disp) (w : List Char) (ws : List Token) (nl : Bool) (ml : Int)
    (h : TEXT_MARGIN_LEFT + (text_width d w d.NORMAL : Int) + (SPACE d : Int)
      + (ELLIPSIS d : Int) ≤ d.WIDTH) :
    (render_words d (Token.word w :: ws) nl ml).isSome ∧
    ((render_words d (Token.word w :: ws) nl ml).getD []).head? =
      some ⟨TEXT_MARGIN_LEFT, TEXT_HEADER_HEIGHT + TEXT_LINE_HEIGHT, w, d.NORMAL, d.FG,
        d.BG, DrawKind.primary⟩ := by
  have hfit : ¬ TEXT_MARGIN_LEFT + (text_width d w d.NORMAL : Int) + (SPACE d : Int)
      + (ELLIPSIS d : Int) > d.WIDTH := by omega
  obtain ⟨rest, hr⟩ := aux_word_head d (OFFSET_Y_MAX ml) nl
    ((OFFSET_Y_MAX ml - (TEXT_HEADER_HEIGHT + TEXT_LINE_HEIGHT)).toNat) ws d.NORMAL d.FG
    TEXT_MARGIN_LEFT (TEXT_HEADER_HEIGHT + TEXT_LINE_HEIGHT) w hfit (le_refl _)
  constructor
  · simp only [render_words, init_fuel, OFFSET_Y_MAX] at hr ⊢
    rw [hr]
    rfl
  · simp only [render_words, init_fuel, OFFSET_Y_MAX] at hr ⊢
    rw [hr]
    rfl

/-- Witness for C10: the theorem applied with `max_lines = -1`. -/
theorem C10_first_draw_before_truncation_witness :
    (render_words dA [Token.word ['a']] true (-1)).isSome ∧
    ((render_words dA [Token.word ['a']] true (-1)).getD []).head? =
      some ⟨TEXT_MARGIN_LEFT, TEXT_HEADER_HEIGHT + TEXT_LINE_HEIGHT, ['a'], dA.NORMAL,
        dA.FG, dA.BG, DrawKind.primary⟩ :=
  C10_first_draw_before_truncation dA ['a'] [] true (-1) (by decide)

/-- Witness for C2: the amended theorem applied at a concrete input. -/
theorem C2_vertical_containment_witness : (74 : Int) ≤ OFFSET_Y_MAX 1 := by
  have h : render_words dA [Token.word ['a']] false 1
      = some [⟨14, 74, ['a'], 0, 100, 0, DrawKind.primary⟩] := by decide
  exact C2_vertical_containment dA [Token.word ['a']] false 1 _ (by decide) h
    ⟨14, 74, ['a'], 0, 100, 0, DrawKind.primary⟩ (by decide)

/-- Witness for C4: the theorem applied to a 23-glyph word that is split
across lines by the engine. -/
theorem C4_split_reconstruction_witness :
    concatPrimary ((do_word dA 152 false 79 0 100 14 74
        (List.replicate 23 'a')).getD ([], none)).1 = List.replicate 23 'a' := by
  have h : do_word dA 152 false 79 0 100 14 74 (List.replicate 23 'a')
      = some (((do_word dA 152 false 79 0 100 14 74 (List.replicate 23 'a')).getD
          ([], none)).1,
        ((do_word dA 152 false 79 0 100 14 74 (List.replicate 23 'a')).getD
          ([], none)).2) := by decide
  exact (C4_split_reconstruction dA 152 false 79 0 100 14 74 (List.replicate 23 'a') _ _ h).2
    (44, 100) (by decide)

/-- Witness for C5: the amended theorem applied at a concrete input. -/
theorem C5_boundary_containment_witness :
    (14 : Int) + (text_width dA ['a'] 0 : Int) ≤ dA.WIDTH := by
  have h : render_words dA [Token.word ['a']] false 4
      = some [⟨14, 74, ['a'], 0, 100, 0, DrawKind.primary⟩] := by decide
  exact C5_boundary_containment dA [Token.word ['a']] false 4 _ h
    ⟨14, 74, ['a'], 0, 100, 0, DrawKind.primary⟩ (by decide) rfl (by decide)

/-- Witness for C6: the theorem applied to a pass that truncates after its
first word. -/
theorem C6_ellipsis_terminal_witness :
    (((render_words dA [Token.word ['h', 'i'], Token.word ['h', 'i']] true 1).getD
        []).filter fun c => c.kind = DrawKind.ellipsis).length ≤ 1 ∧
    (⟨14, 74, ['h', 'i'], 0, 100, 0, DrawKind.primary⟩ : DrawCall).kind
      ≠ DrawKind.ellipsis := by
  have h : render_words dA [Token.word ['h', 'i'], Token.word ['h', 'i']] true 1
      = some ((render_words dA [Token.word ['h', 'i'], Token.word ['h', 'i']]
          true 1).getD []) := by decide
  obtain ⟨a, b⟩ := C6_ellipsis_terminal dA [Token.word ['h', 'i'], Token.word ['h', 'i']] true 1 _ h
  exact ⟨a, b ⟨14, 74, ['h', 'i'], 0, 100, 0, DrawKind.primary⟩ (by decide)⟩

/-- Witness for C7: the characterization applied at a concrete word, giving
that the chosen index 21 satisfies the fit condition and index 22 does
not. -/
theorem C7_split_index_characterization_witness :
    14 + (text_width dA ((List.replicate 23 'a').take
        (split_index dA 0 14 10 (List.replicate 23 'a'))) 0 : Int) + (10 : Int)
      < dA.WIDTH ∧
    ¬ (14 : Int) + (text_width dA ((List.replicate 23 'a').take 22) 0 : Int) + (10 : Int)
      < dA.WIDTH := by
  obtain ⟨g1, g2⟩ := C7_split_index_characterization dA 0 14 10 (List.replicate 23 'a')
  exact ⟨(g1 (by decide)).2, g2 22 (by decide) (by decide)⟩

/-- Witness for C8: the theorem applied to the font id 1 at a concrete
state. -/
theorem C8_style_token_no_draw_witness :
    render_words_aux dA (OFFSET_Y_MAX 4) false 79 [Token.num 1] 0 100 14 74 =
      render_words_aux dA (OFFSET_Y_MAX 4) false 79 []
        (if (1:Int) = dA.NORMAL ∨ (1:Int) = dA.BOLD ∨ (1:Int) = dA.MONO then 1 else 0)
        (if (1:Int) = dA.NORMAL ∨ (1:Int) = dA.BOLD ∨ (1:Int) = dA.MONO then 100 else 1)
        14 74 :=
  C8_style_token_no_draw dA (OFFSET_Y_MAX 4) false 79 [] 1 0 100 14 74 (by decide)

end TrezorUI
